import Mathlib

/-!
Verification of `maro/rl/utils/trajectory_utils.py`.

The two functions `get_k_step_returns` and `get_lambda_returns` are embedded
shallowly: numpy 1-D arrays become `List ℚ`, the in-place mutation of the
caller's reward array becomes an explicit output state, and the Python
failure modes (the `assert` on lengths, `IndexError` from `rewards[-1]` on
an empty array, `TypeError` from `functools.reduce` over an empty sequence
with no initial value, and numpy's broadcasting `ValueError`) become an
explicit error type.  numpy's 1-D broadcasting rule (equal lengths, or
either operand of length one) is modelled exactly.
-/

/-- The Python exceptions the two functions can raise. -/
inductive PyErr where
  | assertionError
  | indexError
  | typeError
  | broadcastError
deriving DecidableEq

/-- `np.pad(xs, (0, n))`: append `n` zeros at the end. -/
def np_pad_end (xs : List ℚ) (n : ℕ) : List ℚ := xs ++ List.replicate n 0

/-- `np.zeros(n)`. -/
def np_zeros (n : ℕ) : List ℚ := List.replicate n 0

/-- `np.pad(rw[i:], (0, i))`: the reward array shifted left by `i` and
zero-padded back to its original length (when `i ≤ len(rw)`). -/
def padShift (rw : List ℚ) (i : ℕ) : List ℚ := np_pad_end (rw.drop i) i

/-- An elementwise numpy binary operation on two 1-D arrays under numpy's
broadcasting rule: equal lengths, or either operand of length one. -/
def bcastOp (f : ℚ → ℚ → ℚ) (x y : List ℚ) : Except PyErr (List ℚ) :=
  if x.length = y.length then .ok (List.zipWith f x y)
  else if x.length = 1 then .ok (y.map (fun b => f (x.headD 0) b))
  else if y.length = 1 then .ok (x.map (fun a => f a (y.headD 0)))
  else .error .broadcastError

/-- `functools.reduce(lambda x, y: x*c + y, arrs, start)`. -/
def reduceScale (c : ℚ) (arrs : List (List ℚ)) (start : List ℚ) :
    Except PyErr (List ℚ) :=
  arrs.foldlM (fun x y => bcastOp (fun a b => a * c + b) x y) start

deriving instance DecidableEq for Except

/-- The result of a call: the returned array (or the exception raised)
together with the final state of the caller's `rewards` array, since the
source mutates it in place. -/
structure KOut where
  res : Except PyErr (List ℚ)
  rew : List ℚ
deriving DecidableEq

/-- `get_k_step_returns(rewards, discount, k, values)`
(`trajectory_utils.py`, lines 9-30).  Steps, in source order: the `assert`
on lengths; the in-place `rewards[-1] = values[-1]`; the sentinel
resolution `if k < 0: k = len(rewards) - 1`; then
`reduce(lambda x, y: x*discount + y,
        [np.pad(rewards[i:], (0, i)) for i in range(min(k, len(rewards))-1, -1, -1)],
        np.pad(values[k:], (0, k)) if values is not None else np.zeros(len(rewards)))`. -/
def get_k_step_returns (rewards : List ℚ) (discount : ℚ) (k : Int)
    (values : Option (List ℚ)) : KOut :=
  match values with
  | some v =>
    if v.length = rewards.length then
      if rewards.length = 0 then ⟨.error .indexError, rewards⟩
      else
        -- the mutation preserves the length, so `len(rewards)` below is
        -- the length of the original list
        let rew := rewards.set (rewards.length - 1) (v.getD (v.length - 1) 0)
        let kr : Int := if k < 0 then (rewards.length : Int) - 1 else k
        ⟨reduceScale discount
            (((List.range (min kr (rewards.length : Int)).toNat).reverse).map
              (padShift rew))
            (np_pad_end (v.drop kr.toNat) kr.toNat),
          rew⟩
    else ⟨.error .assertionError, rewards⟩
  | none =>
    let kr : Int := if k < 0 then (rewards.length : Int) - 1 else k
    ⟨reduceScale discount
        (((List.range (min kr (rewards.length : Int)).toNat).reverse).map
          (padShift rewards))
        (np_zeros rewards.length),
      rewards⟩

/-- The sequence of `get_k_step_returns` calls made by the list
comprehension in `get_lambda_returns`, threading the (mutated) reward array
from call to call and propagating the first exception. -/
def lambdaCalls (rewards : List ℚ) (discount : ℚ) (values : Option (List ℚ)) :
    List Int → Except PyErr (List (List ℚ)) × List ℚ
  | [] => (.ok [], rewards)
  | k :: rest =>
    let o := get_k_step_returns rewards discount k values
    match o.res with
    | .error e => (.error e, o.rew)
    | .ok a =>
      match lambdaCalls o.rew discount values rest with
      | (.error e, rw2) => (.error e, rw2)
      | (.ok as, rw2) => (.ok (a :: as), rw2)

/-- The general-λ branch of `get_lambda_returns` (lines 61-66), taking the
already clamped `truncate_steps = min(truncate_steps, len(rewards) - 1)`:
`pre_truncate = reduce(lambda x, y: x*lmda + y,
    [get_k_step_returns(rewards, discount, k=k, values=values)
     for k in range(truncate_steps-1, 0, -1)])`
(note: `reduce` with no initial value raises `TypeError` on an empty list),
then `post_truncate = get_k_step_returns(..., k=truncate_steps, ...) * lmda**(truncate_steps-1)`
and `(1 - lmda) * pre_truncate + post_truncate`.
The branch is split over three definitions in sequence: `lambdaFinish` is
the last two statements (`post_truncate` and the final sum), `lambdaPre` is
the `reduce` over the comprehension result, and `lambdaGeneralBranch` is
the comprehension itself feeding the rest. -/
def lambdaFinish (rewards2 : List ℚ) (discount lmda : ℚ)
    (values : Option (List ℚ)) (ts : Int) (pre : List ℚ) : KOut :=
  match (get_k_step_returns rewards2 discount ts values).res with
  | .error e => ⟨.error e, (get_k_step_returns rewards2 discount ts values).rew⟩
  | .ok kres =>
    ⟨bcastOp (fun p q => p + q)
        (pre.map (fun x => (1 - lmda) * x))
        (kres.map (fun x => x * lmda ^ (ts - 1).toNat)),
      (get_k_step_returns rewards2 discount ts values).rew⟩

def lambdaPre (discount lmda : ℚ) (values : Option (List ℚ)) (ts : Int)
    (rw2 : List ℚ) : List (List ℚ) → KOut
  | [] => ⟨.error .typeError, rw2⟩
  | a :: rest =>
    match reduceScale lmda rest a with
    | .error e => ⟨.error e, rw2⟩
    | .ok pre => lambdaFinish rw2 discount lmda values ts pre

def lambdaGeneralBranch (rewards : List ℚ) (discount lmda : ℚ)
    (values : Option (List ℚ)) (ts : Int) : KOut :=
  match lambdaCalls rewards discount values
      (((List.range (ts - 1).toNat).reverse).map (fun n : ℕ => (n : Int) + 1)) with
  | (.error e, rw2) => ⟨.error e, rw2⟩
  | (.ok arrs, rw2) => lambdaPre discount lmda values ts rw2 arrs

/-- `get_lambda_returns(rewards, discount, lmda, values, truncate_steps)`
(`trajectory_utils.py`, lines 33-66).  Steps, in source order: the sentinel
resolution `if truncate_steps < 0: truncate_steps = len(rewards) - 1`; the
`lmda == 0` shortcut returning `get_k_step_returns(..., k=1, ...)`; the
`lmda == 1` shortcut returning `get_k_step_returns(..., k=truncate_steps, ...)`
(with `truncate_steps` NOT yet clamped); the clamp
`truncate_steps = min(truncate_steps, len(rewards) - 1)`; then the general
branch. -/
def get_lambda_returns (rewards : List ℚ) (discount lmda : ℚ)
    (values : Option (List ℚ)) (truncate_steps : Int) : KOut :=
  let ts : Int :=
    if truncate_steps < 0 then (rewards.length : Int) - 1 else truncate_steps
  if lmda = 0 then get_k_step_returns rewards discount 1 values
  else if lmda = 1 then get_k_step_returns rewards discount ts values
  else lambdaGeneralBranch rewards discount lmda values
    (min ts ((rewards.length : Int) - 1))

/-- The array returned by `get_k_step_returns`, when it returns one
(`[]` when it raises). -/
def kStepOutput (rewards : List ℚ) (discount : ℚ) (k : Int)
    (values : Option (List ℚ)) : List ℚ :=
  match (get_k_step_returns rewards discount k values).res with
  | .ok a => a
  | .error _ => []

/-- The reward array after the source's in-place
`rewards[-1] = values[-1]` (line 25); the identity when no values are
supplied. -/
def postMutationRewards (rewards : List ℚ) (values : Option (List ℚ)) :
    List ℚ :=
  match values with
  | some v => rewards.set (rewards.length - 1) (v.getD (v.length - 1) 0)
  | none => rewards

/-- The effective horizon of the spec, `K' = min(K, N)`, with the negative
sentinel resolved to `K = N - 1`. -/
def effectiveK (rewards : List ℚ) (k : Int) : ℕ :=
  min (if k < 0 then rewards.length - 1 else k.toNat) rewards.length

/-- The effective truncation horizon of the spec, `T' = min(T, N - 1)`,
with the negative sentinel resolved to `T = N - 1`. -/
def effectiveT (rewards : List ℚ) (T : Int) : ℕ :=
  (min (if T < 0 then (rewards.length : Int) - 1 else T)
    ((rewards.length : Int) - 1)).toNat

/-- Modelled from the spec (§4.1): the K-step bootstrapped return at time
`t`,
`R_t(K) = Σ_{i=0}^{K'-1} γ^i · reward(t+i) + γ^{K'} · bootstrap(t+K')`,
where `reward(j)` reads the post-mutation reward array (zero beyond the
end) and `bootstrap(j) = values[j]` if values were supplied and `j < N`,
else `0`. -/
def kStepReturnSpecAt (rewards : List ℚ) (discount : ℚ)
    (values : Option (List ℚ)) (Kp t : ℕ) : ℚ :=
  (∑ i in Finset.range Kp,
      discount ^ i * (postMutationRewards rewards values).getD (t + i) 0)
    + discount ^ Kp *
        (match values with
         | some v => v.getD (t + Kp) 0
         | none => 0)

/-- Modelled from the spec (§4.1): the whole array of K-step returns, one
entry per time step `t < N`. -/
def kStepReturnSpec (rewards : List ℚ) (discount : ℚ)
    (values : Option (List ℚ)) (Kp : ℕ) : List ℚ :=
  (List.range rewards.length).map (kStepReturnSpecAt rewards discount values Kp)

/-! ### List helper lemmas -/

lemma getD_eq_zero_of_le (xs : List ℚ) (t : ℕ) (h : xs.length ≤ t) :
    xs.getD t 0 = 0 := by
  simp [List.getD_eq_getElem?_getD, List.getElem?_eq_none h]

lemma np_zeros_getD (n t : ℕ) : (np_zeros n).getD t 0 = 0 := by
  simp [np_zeros, List.getD_eq_getElem?_getD, List.getElem?_replicate]
  split <;> rfl

lemma np_zeros_length (n : ℕ) : (np_zeros n).length = n := by
  simp [np_zeros]

lemma map_range_getD (xs : List ℚ) :
    (List.range xs.length).map (fun t => xs.getD t 0) = xs := by
  apply List.ext_getElem
  · simp
  · intro i h1 h2
    simp [List.getD_eq_getElem, h2]

lemma getD_zipWith (f : ℚ → ℚ → ℚ) (xs ys : List ℚ) (t : ℕ)
    (hx : t < xs.length) (hy : t < ys.length) :
    (List.zipWith f xs ys).getD t 0 = f (xs.getD t 0) (ys.getD t 0) := by
  rw [List.getD_eq_getElem _ _ (by simp [List.length_zipWith]; omega),
    List.getD_eq_getElem _ _ hx, List.getD_eq_getElem _ _ hy,
    List.getElem_zipWith]

lemma padShift_length (rw : List ℚ) (i : ℕ) (h : i ≤ rw.length) :
    (padShift rw i).length = rw.length := by
  simp [padShift, np_pad_end]
  omega

lemma padShift_getD (rw : List ℚ) (i t : ℕ) (ht : t < rw.length) :
    (padShift rw i).getD t 0 = rw.getD (t + i) 0 := by
  simp only [padShift, np_pad_end, List.getD_eq_getElem?_getD]
  rcases Nat.lt_or_ge t (rw.length - i) with h | h
  · rw [List.getElem?_append_left (by simp; omega), List.getElem?_drop,
      Nat.add_comm i t]
  · rw [List.getElem?_append_right (by simp; omega)]
    have h1 : rw[t + i]? = none := List.getElem?_eq_none (by omega)
    rw [h1, List.getElem?_replicate, if_pos (by simp; omega)]
    rfl

/-! ### The right-to-left fold computes a discounted sum -/

/-- `reduce(lambda x, y: x*c + y, [g (m-1), ..., g 0], start)` over
equal-length arrays computes, at each index `t`, the discounted sum
`Σ_{i<m} c^i · (g i)[t] + c^m · start[t]`. -/
lemma reduceScale_spec (c : ℚ) (g : ℕ → List ℚ) (N : ℕ) :
    ∀ (m : ℕ) (start : List ℚ), start.length = N →
    (∀ i, i < m → (g i).length = N) →
    reduceScale c ((List.range m).reverse.map g) start =
      .ok ((List.range N).map (fun t =>
        (∑ i in Finset.range m, c ^ i * (g i).getD t 0)
          + c ^ m * start.getD t 0)) := by
  intro m
  induction m with
  | zero =>
    intro start hs _
    simp only [reduceScale, List.range_zero, List.reverse_nil, List.map_nil,
      List.foldlM_nil, Finset.range_zero, Finset.sum_empty, pow_zero, one_mul,
      zero_add]
    rw [← hs, map_range_getD]
    rfl
  | succ m ih =>
    intro start hs hg
    have hgm : (g m).length = N := hg m (Nat.lt_succ_self m)
    rw [List.range_succ, List.reverse_append, List.reverse_singleton,
      List.singleton_append, List.map_cons]
    show reduceScale c (g m :: (List.range m).reverse.map g) start = _
    rw [reduceScale, List.foldlM_cons]
    have hcomb : bcastOp (fun a b => a * c + b) start (g m) =
        .ok (List.zipWith (fun a b => a * c + b) start (g m)) := by
      rw [bcastOp, if_pos (by rw [hs, hgm])]
    rw [hcomb]
    show reduceScale c ((List.range m).reverse.map g)
        (List.zipWith (fun a b => a * c + b) start (g m)) = _
    rw [ih _ (by rw [List.length_zipWith, hs, hgm, Nat.min_self])
      (fun i hi => hg i (Nat.lt_succ_of_lt hi))]
    congr 1
    apply List.map_congr_left
    intro t htmem
    have ht : t < N := List.mem_range.mp htmem
    rw [getD_zipWith _ _ _ _ (by omega) (by omega)]
    rw [Finset.sum_range_succ]
    ring

/-! ### Unfolding lemmas for `get_k_step_returns` -/

lemma k_step_none_res (rewards : List ℚ) (discount : ℚ) (k : Int) :
    (get_k_step_returns rewards discount k none).res =
      reduceScale discount
        (((List.range (min (if k < 0 then (rewards.length : Int) - 1 else k)
            (rewards.length : Int)).toNat).reverse).map (padShift rewards))
        (np_zeros rewards.length) := rfl

lemma k_step_none_rew (rewards : List ℚ) (discount : ℚ) (k : Int) :
    (get_k_step_returns rewards discount k none).rew = rewards := rfl

lemma k_step_some_res (rewards v : List ℚ) (discount : ℚ) (k : Int)
    (hvl : v.length = rewards.length) (hN : 1 ≤ rewards.length) :
    (get_k_step_returns rewards discount k (some v)).res =
      reduceScale discount
        (((List.range (min (if k < 0 then (rewards.length : Int) - 1 else k)
            (rewards.length : Int)).toNat).reverse).map
          (padShift (postMutationRewards rewards (some v))))
        (padShift v ((if k < 0 then (rewards.length : Int) - 1 else k)).toNat) := by
  have h2 : ¬ rewards.length = 0 := by omega
  simp only [get_k_step_returns, if_pos hvl, if_neg h2]
  rfl

lemma k_step_some_rew (rewards v : List ℚ) (discount : ℚ) (k : Int)
    (hvl : v.length = rewards.length) (hN : 1 ≤ rewards.length) :
    (get_k_step_returns rewards discount k (some v)).rew =
      postMutationRewards rewards (some v) := by
  have h2 : ¬ rewards.length = 0 := by omega
  simp only [get_k_step_returns, if_pos hvl, if_neg h2]
  rfl

/-! ### Correctness of `get_k_step_returns` in the clamped regime -/

lemma k_step_core (rewards : List ℚ) (discount : ℚ) (k : Int)
    (values : Option (List ℚ)) (hN : 1 ≤ rewards.length)
    (hv : ∀ v ∈ values, v.length = rewards.length)
    (hk : (1 ≤ k ∧ k ≤ (rewards.length : Int)) ∨ k < 0) :
    (get_k_step_returns rewards discount k values).res =
      .ok (kStepReturnSpec rewards discount values (effectiveK rewards k)) := by
  have hKle : effectiveK rewards k ≤ rewards.length := Nat.min_le_right _ _
  have hm : (min (if k < 0 then (rewards.length : Int) - 1 else k)
      ((rewards.length : Int))).toNat = effectiveK rewards k := by
    unfold effectiveK
    rcases hk with ⟨h1, h2⟩ | hneg
    · rw [if_neg (by omega), if_neg (by omega)]
      omega
    · rw [if_pos hneg, if_pos hneg]
      omega
  have hkr : ((if k < 0 then (rewards.length : Int) - 1 else k)).toNat
      = effectiveK rewards k := by
    unfold effectiveK
    rcases hk with ⟨h1, h2⟩ | hneg
    · rw [if_neg (by omega), if_neg (by omega)]
      omega
    · rw [if_pos hneg, if_pos hneg]
      omega
  cases values with
  | none =>
    rw [k_step_none_res, hm,
      reduceScale_spec discount (padShift rewards) rewards.length
        (effectiveK rewards k) (np_zeros rewards.length) (np_zeros_length _)
        (fun i hi => padShift_length rewards i (by omega))]
    congr 1
    unfold kStepReturnSpec
    apply List.map_congr_left
    intro t htmem
    have ht : t < rewards.length := List.mem_range.mp htmem
    simp only [kStepReturnSpecAt, postMutationRewards, np_zeros_getD, mul_zero,
      add_zero]
    exact Finset.sum_congr rfl (fun i _ => by rw [padShift_getD rewards i t ht])
  | some v =>
    have hvl : v.length = rewards.length := hv v (by simp)
    have hrl : (postMutationRewards rewards (some v)).length = rewards.length := by
      simp [postMutationRewards]
    rw [k_step_some_res rewards v discount k hvl hN, hm, hkr,
      reduceScale_spec discount (padShift (postMutationRewards rewards (some v)))
        rewards.length (effectiveK rewards k)
        (padShift v (effectiveK rewards k))
        (by rw [padShift_length v _ (by omega), hvl])
        (fun i hi => by rw [padShift_length _ i (by omega), hrl])]
    congr 1
    unfold kStepReturnSpec
    apply List.map_congr_left
    intro t htmem
    have ht : t < rewards.length := List.mem_range.mp htmem
    simp only [kStepReturnSpecAt]
    rw [padShift_getD v _ t (by omega)]
    congr 1
    exact Finset.sum_congr rfl (fun i _ => by
      rw [padShift_getD (postMutationRewards rewards (some v)) i t (by omega)])

/-! ### Stability of repeated calls under the in-place mutation -/

lemma postMutation_length (rewards : List ℚ) (values : Option (List ℚ)) :
    (postMutationRewards rewards values).length = rewards.length := by
  cases values <;> simp [postMutationRewards]

lemma postMutation_idem (rewards : List ℚ) (values : Option (List ℚ)) :
    postMutationRewards (postMutationRewards rewards values) values =
      postMutationRewards rewards values := by
  cases values with
  | none => rfl
  | some v =>
    simp only [postMutationRewards, List.length_set]
    exact List.set_set _ _ _ _

/-- Calling `get_k_step_returns` on an already mutated reward array gives
the same result and the same final state: the mutation is idempotent. -/
lemma k_step_stable (rewards : List ℚ) (discount : ℚ) (k : Int)
    (values : Option (List ℚ))
    (hv : ∀ v ∈ values, v.length = rewards.length) :
    get_k_step_returns (postMutationRewards rewards values) discount k values =
      get_k_step_returns rewards discount k values := by
  cases values with
  | none => rfl
  | some v =>
    have hvl : v.length = rewards.length := hv v (by simp)
    by_cases hN : rewards.length = 0
    · have hnil : rewards = [] := List.length_eq_zero.mp hN
      subst hnil
      rfl
    · show get_k_step_returns
          (rewards.set (rewards.length - 1) (v.getD (v.length - 1) 0))
          discount k (some v) = _
      simp only [get_k_step_returns, List.length_set, List.set_set,
        if_pos hvl, if_neg hN]

lemma kStepOutput_eq (rewards : List ℚ) (discount : ℚ) (k : Int)
    (values : Option (List ℚ)) (a : List ℚ)
    (h : (get_k_step_returns rewards discount k values).res = .ok a) :
    kStepOutput rewards discount k values = a := by
  unfold kStepOutput
  rw [h]

lemma kStepOutput_stable (rewards : List ℚ) (discount : ℚ) (k : Int)
    (values : Option (List ℚ))
    (hv : ∀ v ∈ values, v.length = rewards.length) :
    kStepOutput (postMutationRewards rewards values) discount k values =
      kStepOutput rewards discount k values := by
  unfold kStepOutput
  rw [k_step_stable _ _ _ _ hv]

lemma k_step_rew_of_ok (rewards : List ℚ) (discount : ℚ) (k : Int)
    (values : Option (List ℚ)) (a : List ℚ)
    (h : (get_k_step_returns rewards discount k values).res = .ok a) :
    (get_k_step_returns rewards discount k values).rew =
      postMutationRewards rewards values := by
  cases values with
  | none => rfl
  | some v =>
    by_cases hvl : v.length = rewards.length
    · by_cases hN : rewards.length = 0
      · exfalso
        simp only [get_k_step_returns, if_pos hvl, if_pos hN] at h
        exact Except.noConfusion h
      · exact k_step_some_rew rewards v discount k hvl (by omega)
    · exfalso
      simp only [get_k_step_returns, if_neg hvl] at h
      exact Except.noConfusion h

lemma kStepReturnSpec_length (rewards : List ℚ) (discount : ℚ)
    (values : Option (List ℚ)) (Kp : ℕ) :
    (kStepReturnSpec rewards discount values Kp).length = rewards.length := by
  simp [kStepReturnSpec]

lemma getD_map_range (N t : ℕ) (g : ℕ → ℚ) (ht : t < N) :
    ((List.range N).map g).getD t 0 = g t := by
  rw [List.getD_eq_getElem _ _ (by simp [ht])]
  simp

/-- The list comprehension of `get_lambda_returns`, when every call
succeeds: it returns the list of K-step outputs computed on the original
rewards, and leaves the reward array in the once-mutated state. -/
lemma lambdaCalls_ok (discount : ℚ) (values : Option (List ℚ)) :
    ∀ (ks : List Int) (rewards : List ℚ),
    (∀ v ∈ values, v.length = rewards.length) →
    (∀ k ∈ ks, ∃ a, (get_k_step_returns rewards discount k values).res = .ok a) →
    ks ≠ [] →
    lambdaCalls rewards discount values ks =
      (.ok (ks.map (fun k => kStepOutput rewards discount k values)),
        postMutationRewards rewards values)
  | [], _, _, _, hne => absurd rfl hne
  | k :: rest, rewards, hv, hok, _ => by
    obtain ⟨a, ha⟩ := hok k (List.mem_cons_self k rest)
    have hrew : (get_k_step_returns rewards discount k values).rew =
        postMutationRewards rewards values := k_step_rew_of_ok _ _ _ _ _ ha
    simp only [lambdaCalls, ha, hrew]
    cases rest with
    | nil =>
      simp only [lambdaCalls, List.map_cons, List.map_nil]
      rw [kStepOutput_eq _ _ _ _ _ ha]
    | cons k2 rest2 =>
      rw [lambdaCalls_ok discount values (k2 :: rest2)
        (postMutationRewards rewards values)
        (fun v hv2 => by rw [postMutation_length]; exact hv v hv2)
        (fun k' hk' => by
          rw [k_step_stable _ _ _ _ hv]
          exact hok k' (List.mem_cons_of_mem _ hk'))
        (by simp)]
      rw [postMutation_idem]
      simp only [List.map_cons]
      rw [kStepOutput_eq _ _ _ _ _ ha]
      have hmap : ∀ ks2 : List Int,
          ks2.map (fun k' => kStepOutput (postMutationRewards rewards values)
            discount k' values) =
          ks2.map (fun k' => kStepOutput rewards discount k' values) :=
        fun ks2 => List.map_congr_left
          (fun k' _ => kStepOutput_stable rewards discount k' values hv)
      rw [hmap, kStepOutput_stable rewards discount k2 values hv]

/-! ### Correctness of the general-λ branch -/

lemma lambdaGeneralBranch_core (rewards : List ℚ) (discount lmda : ℚ)
    (values : Option (List ℚ)) (ts : Int)
    (hN : 2 ≤ rewards.length)
    (hv : ∀ v ∈ values, v.length = rewards.length)
    (hts2 : 2 ≤ ts) (htsN : ts ≤ (rewards.length : Int) - 1) :
    (lambdaGeneralBranch rewards discount lmda values ts).res =
      .ok ((List.range rewards.length).map (fun t =>
        (1 - lmda) * (∑ n in Finset.Ico 1 ts.toNat,
            lmda ^ (n - 1) *
              (kStepOutput rewards discount (n : Int) values).getD t 0)
          + lmda ^ (ts.toNat - 1) *
              (kStepOutput rewards discount ts values).getD t 0)) := by
  have heach : ∀ kk : Int, 1 ≤ kk → kk ≤ (rewards.length : Int) →
      (get_k_step_returns rewards discount kk values).res =
        .ok (kStepReturnSpec rewards discount values kk.toNat) := by
    intro kk h1 h2
    have hE : effectiveK rewards kk = kk.toNat := by
      unfold effectiveK
      rw [if_neg (by omega)]
      omega
    have hc := k_step_core rewards discount kk values (by omega) hv
      (Or.inl ⟨h1, h2⟩)
    rwa [hE] at hc
  have hout : ∀ kk : Int, 1 ≤ kk → kk ≤ (rewards.length : Int) →
      kStepOutput rewards discount kk values =
        kStepReturnSpec rewards discount values kk.toNat :=
    fun kk h1 h2 => kStepOutput_eq _ _ _ _ _ (heach kk h1 h2)
  have houtlen : ∀ kk : Int, 1 ≤ kk → kk ≤ (rewards.length : Int) →
      (kStepOutput rewards discount kk values).length = rewards.length := by
    intro kk h1 h2
    rw [hout kk h1 h2, kStepReturnSpec_length]
  have hmeq : (ts - 1).toNat = ts.toNat - 1 := by omega
  set m : ℕ := ts.toNat - 1 with hmdef
  have hm1 : 1 ≤ m := by omega
  have hcalls := lambdaCalls_ok discount values
    (((List.range m).reverse).map (fun n : ℕ => (n : Int) + 1)) rewards hv
    (by
      intro kk hkk
      simp only [List.mem_map, List.mem_reverse, List.mem_range] at hkk
      obtain ⟨n, hn, rfl⟩ := hkk
      exact ⟨_, heach ((n : Int) + 1) (by omega) (by omega)⟩)
    (by
      intro hh
      have hlen := congrArg List.length hh
      simp at hlen
      omega)
  have hrev : (List.range m).reverse = (m - 1) :: (List.range (m - 1)).reverse := by
    conv_lhs => rw [show m = (m - 1) + 1 by omega, List.range_succ]
    rw [List.reverse_append]
    rfl
  have harrs : ((((List.range m).reverse).map (fun n : ℕ => (n : Int) + 1)).map
        (fun k => kStepOutput rewards discount k values)) =
      kStepOutput rewards discount (((m - 1 : ℕ) : Int) + 1) values ::
        ((List.range (m - 1)).reverse).map
          (fun n : ℕ => kStepOutput rewards discount ((n : Int) + 1) values) := by
    rw [List.map_map, hrev, List.map_cons]
    rfl
  have hps := reduceScale_spec lmda
    (fun n : ℕ => kStepOutput rewards discount ((n : Int) + 1) values)
    rewards.length (m - 1)
    (kStepOutput rewards discount (((m - 1 : ℕ) : Int) + 1) values)
    (houtlen _ (by omega) (by omega))
    (fun i hi => houtlen ((i : Int) + 1) (by omega) (by omega))
  -- unfold the branch and push the computation through
  unfold lambdaGeneralBranch
  rw [hmeq, hcalls]
  show (lambdaPre discount lmda values ts (postMutationRewards rewards values)
      ((((List.range m).reverse).map (fun n : ℕ => (n : Int) + 1)).map
        (fun k => kStepOutput rewards discount k values))).res = _
  rw [harrs]
  simp only [lambdaPre]
  rw [hps]
  show (lambdaFinish (postMutationRewards rewards values) discount lmda values
      ts ((List.range rewards.length).map (fun t =>
        (∑ i in Finset.range (m - 1), lmda ^ i *
            (kStepOutput rewards discount ((i : Int) + 1) values).getD t 0)
          + lmda ^ (m - 1) *
            (kStepOutput rewards discount (((m - 1 : ℕ) : Int) + 1)
              values).getD t 0))).res = _
  unfold lambdaFinish
  rw [k_step_stable _ _ _ _ hv, heach ts (by omega) (by omega), hmeq]
  show bcastOp (fun p q => p + q)
      (((List.range rewards.length).map (fun t =>
        (∑ i in Finset.range (m - 1), lmda ^ i *
            (kStepOutput rewards discount ((i : Int) + 1) values).getD t 0)
          + lmda ^ (m - 1) *
            (kStepOutput rewards discount (((m - 1 : ℕ) : Int) + 1)
              values).getD t 0)).map (fun x => (1 - lmda) * x))
      ((kStepReturnSpec rewards discount values ts.toNat).map
        (fun x => x * lmda ^ m)) = _
  rw [kStepReturnSpec, List.map_map, List.map_map, bcastOp,
    if_pos (by simp), List.zipWith_map, List.zipWith_same]
  congr 1
  apply List.map_congr_left
  intro t htmem
  have ht : t < rewards.length := List.mem_range.mp htmem
  have hko_ts : (kStepOutput rewards discount ts values).getD t 0 =
      kStepReturnSpecAt rewards discount values ts.toNat t := by
    rw [hout ts (by omega) (by omega), kStepReturnSpec, getD_map_range _ _ _ ht]
  rw [hko_ts, Finset.sum_Ico_eq_sum_range,
    show ts.toNat - 1 = m from hmdef.symm]
  rw [Finset.sum_congr rfl (fun i _ => by
    rw [show (1 : ℕ) + i - 1 = i by omega,
      show ((1 + i : ℕ) : Int) = (i : Int) + 1 by push_cast; ring])]
  have hsum : (∑ i in Finset.range m, lmda ^ i *
      (kStepOutput rewards discount ((i : Int) + 1) values).getD t 0) =
    (∑ i in Finset.range (m - 1), lmda ^ i *
      (kStepOutput rewards discount ((i : Int) + 1) values).getD t 0)
      + lmda ^ (m - 1) *
        (kStepOutput rewards discount (((m - 1 : ℕ) : Int) + 1) values).getD t 0 := by
    conv_lhs => rw [show m = (m - 1) + 1 by omega, Finset.sum_range_succ]
  rw [hsum]
  simp only [Function.comp]
  ring

/-! ### `get_lambda_returns` on the general path -/

lemma lambda_core (rewards : List ℚ) (discount lmda : ℚ)
    (values : Option (List ℚ)) (T : Int)
    (hN : 2 ≤ rewards.length)
    (hv : ∀ v ∈ values, v.length = rewards.length)
    (h0 : lmda ≠ 0) (h1 : lmda ≠ 1)
    (hT : 2 ≤ effectiveT rewards T) :
    (get_lambda_returns rewards discount lmda values T).res =
      .ok ((List.range rewards.length).map (fun t =>
        (1 - lmda) * (∑ n in Finset.Ico 1 (effectiveT rewards T),
            lmda ^ (n - 1) *
              (kStepOutput rewards discount (n : Int) values).getD t 0)
          + lmda ^ (effectiveT rewards T - 1) *
              (kStepOutput rewards discount ((effectiveT rewards T : ℕ) : Int)
                values).getD t 0)) := by
  have hmin : min (if T < 0 then (rewards.length : Int) - 1 else T)
      ((rewards.length : Int) - 1) = ((effectiveT rewards T : ℕ) : Int) := by
    unfold effectiveT
    rw [Int.toNat_of_nonneg (le_min (by split_ifs <;> omega) (by omega))]
  have hle : ((effectiveT rewards T : ℕ) : Int) ≤ (rewards.length : Int) - 1 := by
    rw [← hmin]
    exact min_le_right _ _
  have hts2 : (2 : Int) ≤ ((effectiveT rewards T : ℕ) : Int) := by
    exact_mod_cast hT
  have hcore := lambdaGeneralBranch_core rewards discount lmda values
    ((effectiveT rewards T : ℕ) : Int) hN hv hts2 hle
  rw [Int.toNat_ofNat] at hcore
  simp only [get_lambda_returns]
  rw [if_neg h0, if_neg h1, hmin]
  exact hcore

/-! ### The claims -/

/-- C1: for every reward sequence of length `N ≥ 1`, discount `γ`, horizon
`K` with `1 ≤ K ≤ N` (or the negative sentinel, resolving to `K = N-1`),
and optional value sequence of length `N`, `get_k_step_returns` returns at
every index `t < N` exactly
`Σ_{i=0}^{K'-1} γ^i·reward(t+i) + γ^{K'}·bootstrap(t+K')` with
`K' = min(K, N)`, `reward(j)` the post-mutation reward array (zero beyond
the end), and `bootstrap(j) = values[j]` if values were supplied and
`j < N`, else `0`. -/
theorem kStepReturn_formula (rewards : List ℚ) (discount : ℚ) (k : Int)
    (values : Option (List ℚ)) (hN : 1 ≤ rewards.length)
    (hv : ∀ v ∈ values, v.length = rewards.length)
    (hk : (1 ≤ k ∧ k ≤ (rewards.length : Int)) ∨ k < 0) :
    (get_k_step_returns rewards discount k values).res =
      .ok (kStepReturnSpec rewards discount values (effectiveK rewards k)) :=
  k_step_core rewards discount k values hN hv hk

theorem kStepReturn_formula_witness :
    (get_k_step_returns [1, 2] (1/2) 1 (some [3, 4])).res =
      .ok (kStepReturnSpec [1, 2] (1/2) (some [3, 4]) (effectiveK [1, 2] 1)) :=
  kStepReturn_formula [1, 2] (1/2) 1 (some [3, 4]) (by decide)
    (by intro v hv2; cases hv2; rfl) (by decide)

/-- C2: for every reward sequence of length `N ≥ 2`, optional value
sequence of length `N`, discount, `0 < λ < 1`, and truncation horizon `T`
whose effective value `T' = min(T, N-1)` (negative sentinel resolving to
`N-1`) satisfies `T' ≥ 2`, `get_lambda_returns` returns at every index `t`
exactly `(1-λ)·Σ_{n=1}^{T'-1} λ^{n-1}·R_t(n) + λ^{T'-1}·R_t(T')`, where
`R_t(n)` is the `get_k_step_returns` output for horizon `n` on the same
inputs. -/
theorem lambdaReturn_formula (rewards : List ℚ) (discount lmda : ℚ)
    (values : Option (List ℚ)) (T : Int)
    (hN : 2 ≤ rewards.length)
    (hv : ∀ v ∈ values, v.length = rewards.length)
    (h0 : 0 < lmda) (h1 : lmda < 1)
    (hT : 2 ≤ effectiveT rewards T) :
    (get_lambda_returns rewards discount lmda values T).res =
      .ok ((List.range rewards.length).map (fun t =>
        (1 - lmda) * (∑ n in Finset.Ico 1 (effectiveT rewards T),
            lmda ^ (n - 1) *
              (kStepOutput rewards discount (n : Int) values).getD t 0)
          + lmda ^ (effectiveT rewards T - 1) *
              (kStepOutput rewards discount ((effectiveT rewards T : ℕ) : Int)
                values).getD t 0)) :=
  lambda_core rewards discount lmda values T hN hv (ne_of_gt h0)
    (ne_of_lt h1) hT

theorem lambdaReturn_formula_witness :
    (get_lambda_returns [1, 2, 3] 1 (1/2) none (-1)).res =
      .ok ((List.range ([1, 2, 3] : List ℚ).length).map (fun t =>
        (1 - (1/2 : ℚ)) * (∑ n in Finset.Ico 1 (effectiveT [1, 2, 3] (-1)),
            (1/2 : ℚ) ^ (n - 1) *
              (kStepOutput [1, 2, 3] 1 (n : Int) none).getD t 0)
          + (1/2 : ℚ) ^ (effectiveT [1, 2, 3] (-1) - 1) *
              (kStepOutput [1, 2, 3] 1 ((effectiveT [1, 2, 3] (-1) : ℕ) : Int)
                none).getD t 0)) :=
  lambdaReturn_formula [1, 2, 3] 1 (1/2) none (-1) (by decide)
    (by intro v hv2; cases hv2) (by norm_num) (by norm_num) (by decide)

/-- C3 (code bug): the claim says neither function can fail for any integer
horizon once the value sequence has the right length, but with values
supplied and `K = 3 > N = 2` the bootstrap array `np.pad(values[3:], (0, 3))`
has length `3` and the very first fold step raises a numpy broadcasting
`ValueError` (shapes `(3,)` and `(2,)`) instead of clamping. -/
theorem kStepReturn_overlong_horizon_raises :
    (get_k_step_returns [1, 2] 1 3 (some [3, 4])).res =
      .error .broadcastError := by decide

/-- C4 (code bug): the claim says that with effective truncation horizon
`T' = 1` the weighted sum is empty and `get_lambda_returns` returns the
one-step return without raising, but the code calls `functools.reduce`
with no initial value on the empty list of K-step returns, which raises
`TypeError`; here `N = 2` and the sentinel `T = -1` resolve to `T' = 1`. -/
theorem lambdaReturn_empty_reduce_raises :
    (get_lambda_returns [1, 2] 1 (1/2) none (-1)).res =
      .error .typeError := by
  norm_num [get_lambda_returns, lambdaGeneralBranch, lambdaCalls, lambdaPre,
    Int.toNat_ofNat]

/-- C5 counterexample: on the `λ = 1` shortcut path `T` is passed to
`get_k_step_returns` unclamped, so `T = 2 > N - 1 = 1` gives a different
output than `T = 1` (`[2, 1]` versus `[1, 1]` for unit rewards and
`γ = 1`). -/
theorem lambdaReturn_unclamped_T_cex :
    (get_lambda_returns [1, 1] 1 1 none 2).res ≠
      (get_lambda_returns [1, 1] 1 1 none 1).res := by
  norm_num [get_lambda_returns, get_k_step_returns, reduceScale, bcastOp,
    padShift, np_pad_end, np_zeros, List.foldlM, bind, Except.bind,
    Int.toNat_ofNat, List.zipWith, List.replicate, List.drop, List.head?,
    Option.getD, Option.or, pure, Except.pure]

/-- C5 amended: for every `λ ≠ 1` (the `λ = 0` shortcut ignores `T`, and
the general path clamps `T' = min(T, N-1)` before use), the output of
`get_lambda_returns` for any `T ≥ N - 1` equals the output for
`T = N - 1`; on the `λ = 1` shortcut path `T` is passed unclamped, so the
claim fails there. -/
theorem lambdaReturn_T_clamp_general (rewards : List ℚ) (discount lmda : ℚ)
    (values : Option (List ℚ)) (T : Int)
    (h1 : lmda ≠ 1) (hT : (rewards.length : Int) - 1 ≤ T) :
    get_lambda_returns rewards discount lmda values T =
      get_lambda_returns rewards discount lmda values
        ((rewards.length : Int) - 1) := by
  simp only [get_lambda_returns]
  by_cases h0 : lmda = 0
  · rw [if_pos h0, if_pos h0]
  · rw [if_neg h0, if_neg h0, if_neg h1, if_neg h1]
    have hmineq : min (if T < 0 then (rewards.length : Int) - 1 else T)
        ((rewards.length : Int) - 1) =
      min (if (rewards.length : Int) - 1 < 0 then (rewards.length : Int) - 1
          else (rewards.length : Int) - 1) ((rewards.length : Int) - 1) := by
      simp only [Int.min_def]
      split_ifs <;> omega
    rw [hmineq]

theorem lambdaReturn_T_clamp_general_witness :
    get_lambda_returns [1, 2, 3] 1 (1/2) none 7 =
      get_lambda_returns [1, 2, 3] 1 (1/2) none 2 :=
  lambdaReturn_T_clamp_general [1, 2, 3] 1 (1/2) none 7 (by norm_num)
    (by decide)

/-- C6 (code bug): the claim says every successful call returns an array of
length `N = len(rewards)`, but for `N = 1`, values supplied and `K = 2` the
bootstrap array `np.pad(values[2:], (0, 2))` has length `2`, broadcasts
against the length-1 reward array, and the call succeeds with an array of
length `2 ≠ 1`. -/
theorem kStepReturn_length_violation :
    (get_k_step_returns [1] 1 2 (some [5])).res = .ok [5, 5] ∧
      ([5, 5] : List ℚ).length ≠ ([1] : List ℚ).length := by
  constructor
  · norm_num [get_k_step_returns, reduceScale, bcastOp, padShift, np_pad_end,
      np_zeros, List.foldlM, bind, Except.bind, Int.toNat_ofNat, List.zipWith,
      List.replicate, List.drop, List.head?, Option.getD, Option.or, pure,
      Except.pure]
  · decide

/-- C7: when a value sequence of matching length is supplied,
`get_k_step_returns` leaves the caller's reward array in the state
`rewards.set (N-1) values[N-1]`: exactly the final entry is overwritten
with the final value entry and every other entry is untouched; when no
values are supplied the reward array is returned unchanged.  (The value
sequence itself is never written to: the embedding threads no state for
`values` because the source contains no assignment to it.) -/
theorem kStepReturn_mutation_frame (rewards v : List ℚ) (discount : ℚ)
    (k : Int) (hN : 1 ≤ rewards.length) (hvl : v.length = rewards.length) :
    (get_k_step_returns rewards discount k (some v)).rew =
        rewards.set (rewards.length - 1) (v.getD (v.length - 1) 0)
      ∧ (∀ i, i < rewards.length → i ≠ rewards.length - 1 →
          ((get_k_step_returns rewards discount k (some v)).rew).getD i 0 =
            rewards.getD i 0)
      ∧ ((get_k_step_returns rewards discount k (some v)).rew).getD
            (rewards.length - 1) 0 = v.getD (v.length - 1) 0
      ∧ (get_k_step_returns rewards discount k none).rew = rewards := by
  have hrew := k_step_some_rew rewards v discount k hvl hN
  refine ⟨by rw [hrew]; rfl, ?_, ?_, rfl⟩
  · intro i hi hne
    rw [hrew]
    show (rewards.set (rewards.length - 1) (v.getD (v.length - 1) 0)).getD
        i 0 = _
    rw [List.getD_eq_getElem?_getD, List.getD_eq_getElem?_getD,
      List.getElem?_set_ne (by omega)]
    rw [List.getD_eq_getElem?_getD]
  · rw [hrew]
    show (rewards.set (rewards.length - 1) (v.getD (v.length - 1) 0)).getD
        (rewards.length - 1) 0 = _
    rw [List.getD_eq_getElem?_getD, List.getElem?_set_self (by omega)]
    rfl

theorem kStepReturn_mutation_frame_witness :
    (get_k_step_returns [1, 2] 0 (-1) (some [3, 4])).rew =
      ([1, 2] : List ℚ).set ((([1, 2] : List ℚ).length) - 1)
        (([3, 4] : List ℚ).getD ((([3, 4] : List ℚ).length) - 1) 0) :=
  (kStepReturn_mutation_frame [1, 2] [3, 4] 0 (-1) (by decide) (by decide)).1

/-- C8: `get_lambda_returns` with `λ = 0` returns, for every reward
sequence, discount, optional value sequence, and truncation horizon,
exactly the same result (and the same final reward-array state) as
`get_k_step_returns` with `K = 1`: the `λ == 0` shortcut is the first
branch taken. -/
theorem lambdaZero_eq_oneStep (rewards : List ℚ) (discount : ℚ)
    (values : Option (List ℚ)) (T : Int) :
    get_lambda_returns rewards discount 0 values T =
      get_k_step_returns rewards discount 1 values := by
  simp [get_lambda_returns]

/-! ### Length-mismatch failure -/

lemma k_step_mismatch_res (rewards v : List ℚ) (discount : ℚ) (k : Int)
    (hlen : v.length ≠ rewards.length) :
    (get_k_step_returns rewards discount k (some v)).res =
      .error .assertionError := by
  simp only [get_k_step_returns, if_neg hlen]

lemma lambdaGeneralBranch_mismatch (rewards v : List ℚ) (discount lmda : ℚ)
    (ts : Int) (hlen : v.length ≠ rewards.length) :
    ∃ e, (lambdaGeneralBranch rewards discount lmda (some v) ts).res =
      .error e := by
  unfold lambdaGeneralBranch
  cases hks : ((List.range (ts - 1).toNat).reverse).map
      (fun n : ℕ => (n : Int) + 1) with
  | nil =>
    exact ⟨.typeError, rfl⟩
  | cons kk rest =>
    have hLC : lambdaCalls rewards discount (some v) (kk :: rest) =
        (.error .assertionError,
          (get_k_step_returns rewards discount kk (some v)).rew) := by
      simp only [lambdaCalls, k_step_mismatch_res rewards v discount kk hlen]
    rw [hLC]
    exact ⟨.assertionError, rfl⟩

/-- C9: whenever a value sequence is supplied whose length differs from the
reward sequence's, both functions fail for every choice of the scalar
parameters: `get_k_step_returns` raises its length `assert`, and
`get_lambda_returns` raises on every path (the assertion via its inner
K-step calls on the shortcut paths and on the general path with a nonempty
horizon range, and the empty-`reduce` `TypeError` when the horizon range is
empty); mismatched arrays are never silently truncated or padded. -/
theorem mismatch_always_fails (rewards v : List ℚ) (discount lmda : ℚ)
    (k T : Int) (hne : rewards ≠ [])
    (hlen : v.length ≠ rewards.length) :
    (get_k_step_returns rewards discount k (some v)).res =
        .error .assertionError
      ∧ ∃ e, (get_lambda_returns rewards discount lmda (some v) T).res =
          .error e := by
  refine ⟨k_step_mismatch_res rewards v discount k hlen, ?_⟩
  simp only [get_lambda_returns]
  by_cases h0 : lmda = 0
  · rw [if_pos h0]
    exact ⟨_, k_step_mismatch_res rewards v discount 1 hlen⟩
  · rw [if_neg h0]
    by_cases h1 : lmda = 1
    · rw [if_pos h1]
      exact ⟨_, k_step_mismatch_res rewards v discount _ hlen⟩
    · rw [if_neg h1]
      exact lambdaGeneralBranch_mismatch rewards v discount lmda _ hlen

theorem mismatch_always_fails_witness :
    (get_k_step_returns [1] 0 0 (some [1, 2])).res =
        .error .assertionError
      ∧ ∃ e, (get_lambda_returns [1] 0 (1/2) (some [1, 2]) (-1)).res =
          .error e :=
  mismatch_always_fails [1] [1, 2] 0 (1/2) 0 (-1) (by decide) (by decide)

/-- C10: on a length mismatch the `assert` fires before the in-place
`rewards[-1] = values[-1]` overwrite, so the failed call leaves the
caller's reward array completely unchanged. -/
theorem mismatch_preserves_rewards (rewards v : List ℚ) (discount : ℚ)
    (k : Int) (hne : rewards ≠ [])
    (hlen : v.length ≠ rewards.length) :
    (get_k_step_returns rewards discount k (some v)).res =
        .error .assertionError
      ∧ (get_k_step_returns rewards discount k (some v)).rew = rewards := by
  refine ⟨k_step_mismatch_res rewards v discount k hlen, ?_⟩
  simp only [get_k_step_returns, if_neg hlen]

theorem mismatch_preserves_rewards_witness :
    (get_k_step_returns [1] 0 0 (some [1, 2])).res =
        .error .assertionError
      ∧ (get_k_step_returns [1] 0 0 (some [1, 2])).rew = [1] :=
  mismatch_preserves_rewards [1] [1, 2] 0 0 (by decide) (by decide)
